import Mathlib

/-!
Verification development for the ImageStitching repository (src/main.py).

The source is a planar-homography estimation and image-stitching pipeline:
`compute_points_mat` / `compute_homography_mat` build and solve the
least-squares system for a homography, `transform_points` applies a 3x3
projective matrix with perspective divide, `get_inliers` is the RANSAC
robust fitter, `transform_grid` / `warp_image` resample an image through a
homography, and `stitch_2_images` / `stitch_N_images` orchestrate the
pairwise stitching.

The Python code is embedded shallowly over `ℚ`: numpy float arrays become
lists of rationals, 3x3 matrices become `List (List ℚ)`, and
`np.linalg.lstsq` is modelled by exact solving of the normal equations
(see `np_lstsq`).  Numpy's behaviour at a zero homogeneous component
(division by zero produces inf/nan, which then fails every `<=` test) is
modelled explicitly where it matters, in the RANSAC inlier test.
-/

set_option allowUnsafeReducibility true in
attribute [semireducible] Rat.add Rat.mul Rat.inv Rat.sub Rat.neg Rat.div Rat.ofScientific

namespace ImageStitching

/-- A 2D point `(u, v)` with rational coordinates. -/
abbrev Pt := ℚ × ℚ

/-- A matrix as a list of rows (numpy 2-D array). -/
abbrev Matx := List (List ℚ)

/-- Entry `M[i, j]` of a list-of-rows matrix (out-of-range reads give `0`;
all uses in the development are in range). -/
def ent (M : Matx) (i j : ℕ) : ℚ := (M.getD i []).getD j 0

/-- `compute_points_mat` (src/main.py lines 26-57).  For each correspondence
`(x_s, y_s) -> (x_t, y_t)` the loop writes two consecutive rows
`[x_s, y_s, 1, 0, 0, 0, -x_s*x_t, -y_s*x_t]` and
`[0, 0, 0, x_s, y_s, 1, -x_s*y_t, -y_s*y_t]` into the `(2L) x 8` matrix `A`;
the `zip`-with-two-row-blocks below is that loop. -/
def compute_points_mat (src_points target_points : List Pt) : Matx :=
  (List.zip src_points target_points).flatMap (fun pq =>
    [[pq.1.1, pq.1.2, 1, 0, 0, 0, -pq.1.1 * pq.2.1, -pq.1.2 * pq.2.1],
     [0, 0, 0, pq.1.1, pq.1.2, 1, -pq.1.1 * pq.2.2, -pq.1.2 * pq.2.2]])

/-- `np.ndarray.flatten(np.array(target_points))` (src/main.py line 76):
the row-major flattening `[x_t0, y_t0, x_t1, y_t1, ...]`. -/
def flatten_points (points : List Pt) : List ℚ :=
  points.flatMap (fun q => [q.1, q.2])

/-- Dot product of two coefficient lists. -/
def dotL (a b : List ℚ) : ℚ := (List.zipWith (· * ·) a b).sum

/-- Column `j` of a list-of-rows matrix. -/
def colL (A : Matx) (j : ℕ) : List ℚ := A.map (fun r => r.getD j 0)

/-- The normal-equations matrix `Aᵀ * A` for an 8-column system. -/
def normalMat (A : Matx) : Matx :=
  (List.range 8).map (fun i => (List.range 8).map (fun j => dotL (colL A i) (colL A j)))

/-- The normal-equations right-hand side `Aᵀ * b` for an 8-column system. -/
def normalRhs (A : Matx) (b : List ℚ) : List ℚ :=
  (List.range 8).map (fun i => dotL (colL A i) b)

/-- Pick the first row whose leading coefficient is nonzero, returning it and
the remaining rows in order. -/
def pickPivot : List (List ℚ × ℚ) → Option ((List ℚ × ℚ) × List (List ℚ × ℚ))
  | [] => none
  | r :: rs =>
    if r.1.headD 0 ≠ 0 then some (r, rs)
    else
      match pickPivot rs with
      | some (p, rest) => some (p, r :: rest)
      | none => none

/-- Eliminate the leading column of row `r` using pivot row `p` (whose leading
coefficient is `a`). -/
def elimRow (p : List ℚ × ℚ) (a : ℚ) (r : List ℚ × ℚ) : List ℚ × ℚ :=
  (List.zipWith (· - ·) r.1.tail (p.1.tail.map (fun x => r.1.headD 0 / a * x)),
   r.2 - r.1.headD 0 / a * p.2)

/-- Exact Gaussian elimination with back substitution on an augmented system:
`n` is the number of unknowns, each row is `(coefficients, rhs)`.  A column
with no available pivot corresponds to a free variable, which is set to `0`. -/
def solveCols : ℕ → List (List ℚ × ℚ) → List ℚ
  | 0, _ => []
  | n + 1, rows =>
    match pickPivot rows with
    | none => 0 :: solveCols n (rows.map (fun r => (r.1.tail, r.2)))
    | some (p, rest) =>
      let a := p.1.headD 0
      let sol := solveCols n (rest.map (elimRow p a))
      (p.2 - dotL p.1.tail sol) / a :: sol

/-- Model of `np.linalg.lstsq(A, b, None)[0]` (src/main.py line 78) for the
8-unknown homography system: numpy returns a least-squares solution of
`A h ≈ b` (for rank-deficient `A`, the minimum-norm one).  Modelled by exact
Gaussian elimination on the normal equations `AᵀA h = Aᵀb`, whose solutions
are exactly the least-squares solutions of `A h ≈ b`; free variables are set
to zero, which agrees with numpy whenever `A` has full column rank.
(The theorems below rely on rank-deficient outputs only through components
that every solution of the normal equations shares.) -/
def np_lstsq (A : Matx) (b : List ℚ) : List ℚ :=
  solveCols 8 (List.zip (normalMat A) (normalRhs A b))

/-- `compute_homography_mat` (src/main.py lines 61-81): build the system,
least-squares solve, append the fixed ninth parameter `1`, reshape to 3x3. -/
def compute_homography_mat (src_points target_points : List Pt) : Matx :=
  let A := compute_points_mat src_points target_points
  let b := flatten_points target_points
  let H9 := np_lstsq A b ++ [1]
  [H9.take 3, (H9.drop 3).take 3, (H9.drop 6).take 3]

/-- The third homogeneous component `H[2,0]*u + H[2,1]*v + H[2,2]` of a point
under `H` — the denominator of the perspective divide in `transform_points`. -/
def wOf (H : Matx) (p : Pt) : ℚ := ent H 2 0 * p.1 + ent H 2 1 * p.2 + ent H 2 2

/-- `transform_points` (src/main.py lines 84-106): append 1 to each point,
multiply by `Hᵀ`, divide the first two homogeneous components by the third.
(Division by a zero third component is rational division by zero here; numpy
instead produces inf/nan values — the RANSAC inlier test `inlierIndices`
models that case explicitly with a `wOf ≠ 0` conjunct.) -/
def transform_points (points : List Pt) (H : Matx) : List Pt :=
  points.map (fun p =>
    ((ent H 0 0 * p.1 + ent H 0 1 * p.2 + ent H 0 2) / wOf H p,
     (ent H 1 0 * p.1 + ent H 1 1 * p.2 + ent H 1 2) / wOf H p))

/-- An element of the point lists passed to `get_inliers`: a Python value that
is either a plain 2-tuple or a `numpy.ndarray` holding the two coordinates
(the list comprehensions at src/main.py lines 131-132 test `type(p)` and keep
only non-ndarray elements). -/
inductive InPt where
  | tup : Pt → InPt
  | arr : Pt → InPt
deriving DecidableEq

/-- The comprehension
`[np.expand_dims(np.array(p), 0) for p in points if type(p) != np.ndarray]`
followed by `np.concatenate` (src/main.py lines 131-132): every point whose
type is `numpy.ndarray` is silently dropped, the remaining points are kept in
their original order. -/
def filterPts (points : List InPt) : List Pt :=
  points.filterMap (fun p => match p with | .tup q => some q | .arr _ => none)

/-- Numpy fancy indexing `points_array[indices]` on a list of points
(reads are in bounds in every use; out-of-range reads give `(0, 0)` where
numpy would raise). -/
def select (l : List Pt) (indices : List ℕ) : List Pt :=
  indices.map (fun i => l.getD i (0, 0))

/-- The inlier test of `get_inliers` (src/main.py lines 147-151):
`dist = np.linalg.norm(mapped_points - target_points, axis=1)` followed by
`np.where(dist <= d)[0]`.  The Euclidean comparison `dist <= d` is modelled by
the squared comparison (`d` is nonnegative in every call).  A point whose
third homogeneous component `wOf H p` is zero is divided by zero in
`transform_points`; numpy produces inf/nan coordinates there, its distance is
inf/nan, and `dist <= d` is False for both — modelled by the `wOf H p ≠ 0`
conjunct, so such a point is excluded rather than crashing the loop. -/
def inlierIndices (src target : List Pt) (d : ℚ) (H : Matx) : List ℕ :=
  let mapped := transform_points src H
  (List.range src.length).filter (fun i =>
    decide (wOf H (src.getD i (0, 0)) ≠ 0 ∧
      ((mapped.getD i (0, 0)).1 - (target.getD i (0, 0)).1) ^ 2 +
        ((mapped.getD i (0, 0)).2 - (target.getD i (0, 0)).2) ^ 2 ≤ d ^ 2))

/-- `_get_inlier_indices` (src/main.py lines 142-151): fit a homography on the
selected correspondences, transform every source point, keep the indices whose
mapped point lies within distance `d` of its target point. -/
def getInlierIndices (src target : List Pt) (d : ℚ) (indices : List ℕ) : List ℕ :=
  inlierIndices src target d
    (compute_homography_mat (select src indices) (select target indices))

/-- `np.argmax`: the index of the first occurrence of the maximum. -/
def argmaxAux : List ℕ → ℕ → ℕ → ℕ → ℕ
  | [], _, best, _ => best
  | x :: xs, pos, best, bestVal =>
    if bestVal < x then argmaxAux xs (pos + 1) pos x
    else argmaxAux xs (pos + 1) best bestVal

/-- `np.argmax` over a list (`0` on the empty list, where numpy raises). -/
def argmaxIdx : List ℕ → ℕ
  | [] => 0
  | x :: xs => argmaxAux xs 1 0 x

/-- The RANSAC loop of `get_inliers` (src/main.py lines 154-164), producing
`samples_indices_history`: each round appends its inlier-index set, and, when
that set has at least `T` elements, additionally refits on the inlier set and
appends the refined inlier-index set.  `sampler i` stands for the random draw
`np.random.choice(len(src_points), s, replace=False)` of round `i`. -/
def ransacHistory (src target : List Pt) (d : ℚ) (T : ℕ) (sampler : ℕ → List ℕ) :
    ℕ → List (List ℕ)
  | 0 => []
  | n + 1 =>
    let h := ransacHistory src target d T sampler n
    let inl := getInlierIndices src target d (sampler n)
    let h2 := h ++ [inl]
    if T ≤ inl.length then h2 ++ [getInlierIndices src target d inl] else h2

/-- `get_inliers` (src/main.py lines 109-170).  The caller-supplied threshold
parameter `T` is unconditionally shadowed by `T = min(len(src_points), 10)` at
line 136 before any use, exactly as in the source.  `num_inliers_history` is
the elementwise length of `samples_indices_history` (the two lists are kept in
lockstep by the loop), and `np.argmax` selects the first history entry of
maximal length.  Randomness is a parameter: `sampler i len s` stands for the
draw `np.random.choice(len, s, replace=False)` of round `i`. -/
def get_inliers (sampler : ℕ → ℕ → ℕ → List ℕ) (src_points target_points : List InPt)
    (d : ℚ) (s : ℕ) (N : ℕ) (T : Option ℕ) : List Pt × List Pt :=
  let src := filterPts src_points
  let target := filterPts target_points
  let T := min src.length 10
  let history := ransacHistory src target d T (fun i => sampler i src.length s) N
  let best := history.getD (argmaxIdx (history.map List.length)) []
  (select src best, select target best)

/-- `transform_grid` (src/main.py lines 174-200): `np.meshgrid(u_range, v_range)`
flattened row-major lists, for each `v` in `v_range` in order, the points
`(u, v)` for `u` in `u_range`; the function returns the grid points and their
images under `H`. -/
def transform_grid (u_range v_range : List ℚ) (H : Matx) : List Pt × List Pt :=
  let points := v_range.flatMap (fun v => u_range.map (fun u => (u, v)))
  (points, transform_points points H)

/-- Python `int(x)` on a real value: truncation toward zero (floor for
nonnegative values, ceiling for negative ones). -/
def pyInt (q : ℚ) : ℤ := if q < 0 then -(⌊-q⌋) else ⌊q⌋

/-- `np.min` over a nonempty list (`0` on the empty list, where numpy raises). -/
def npMin : List ℚ → ℚ
  | [] => 0
  | x :: xs => xs.foldl min x

/-- `np.max` over a nonempty list (`0` on the empty list, where numpy raises). -/
def npMax : List ℚ → ℚ
  | [] => 0
  | x :: xs => xs.foldl max x

/-- `np.arange(a, b)` over integers. -/
def intRange (a b : ℤ) : List ℤ := (List.range (b - a).toNat).map (fun (k : ℕ) => a + (k : ℤ))

/-- `np.linalg.inv` on the 3x3 homography (src/main.py line 221), as the
adjugate formula.  A singular matrix becomes rational division by zero here,
where numpy raises `LinAlgError`; no theorem below touches that case. -/
def inv3 (H : Matx) : Matx :=
  let d := ent H 0 0 * (ent H 1 1 * ent H 2 2 - ent H 1 2 * ent H 2 1)
         - ent H 0 1 * (ent H 1 0 * ent H 2 2 - ent H 1 2 * ent H 2 0)
         + ent H 0 2 * (ent H 1 0 * ent H 2 1 - ent H 1 1 * ent H 2 0)
  [[(ent H 1 1 * ent H 2 2 - ent H 1 2 * ent H 2 1) / d,
    (ent H 0 2 * ent H 2 1 - ent H 0 1 * ent H 2 2) / d,
    (ent H 0 1 * ent H 1 2 - ent H 0 2 * ent H 1 1) / d],
   [(ent H 1 2 * ent H 2 0 - ent H 1 0 * ent H 2 2) / d,
    (ent H 0 0 * ent H 2 2 - ent H 0 2 * ent H 2 0) / d,
    (ent H 0 2 * ent H 1 0 - ent H 0 0 * ent H 1 2) / d],
   [(ent H 1 0 * ent H 2 1 - ent H 1 1 * ent H 2 0) / d,
    (ent H 0 1 * ent H 2 0 - ent H 0 0 * ent H 2 1) / d,
    (ent H 0 0 * ent H 1 1 - ent H 0 1 * ent H 1 0) / d]]

/-- Elementwise division of a matrix by a scalar (`H_inv / H_inv[2,2]`,
src/main.py line 222). -/
def matScaleDiv (M : Matx) (c : ℚ) : Matx := M.map (fun r => r.map (fun x => x / c))

/-- A pixel: the three channel intensities of an RGB image. -/
abbrev Px := ℚ × ℚ × ℚ

/-- An image: a rectangular array of pixels; row index is `v`, column index is
`u`, origin at the top left. -/
abbrev Img := List (List Px)

/-- Channel `c` of a pixel. -/
def pxChan (c : Fin 3) (p : Px) : ℚ :=
  match c with | 0 => p.1 | 1 => p.2.1 | 2 => p.2.2

/-- `image[:, :, channel]`. -/
def chanImg (c : Fin 3) (image : Img) : List (List ℚ) :=
  image.map (fun row => row.map (pxChan c))

/-- `image.shape[0]` (the number of rows). -/
def imgH (image : Img) : ℕ := image.length

/-- `image.shape[1]` (the number of columns; numpy arrays are rectangular). -/
def imgW (image : Img) : ℕ := (image.headD []).length

/-- The output canvas of `warp_image`: `np.zeros((rows, cols, 3))` together
with the pixel values written by `fill_channel` (unwritten positions stay 0). -/
structure Canvas where
  rows : ℕ
  cols : ℕ
  px : ℕ → ℕ → Fin 3 → ℚ

/-- The type of the external 2-D interpolant: a channel matrix, a fractional
`v` coordinate and a fractional `u` coordinate give an intensity.
`interp` arguments of this type stand for
`scipy.interpolate.RectBivariateSpline(orig_v_range, orig_u_range,
image[:,:,channel])` evaluated with `grid=False` (src/main.py lines 248, 262);
scipy is an external collaborator (spec section 4.5: "fit a smooth 2D
interpolant over the source image's pixel grid and evaluate it at the
fractional source coordinates"). -/
abbrev Interp := List (List ℚ) → ℚ → ℚ → ℚ

/-- Modelled from the spec: a concrete instance of the external
`RectBivariateSpline` interpolant of section 4.5, used for witnesses.  At the
integer grid knots it reproduces the data values (the defining property of an
interpolant, the only property any theorem relies on); off-knot and
out-of-range values are "extrapolated/undefined values" per the spec, modelled
as `0`. -/
def interpModel (M : List (List ℚ)) (v u : ℚ) : ℚ :=
  if v.den = 1 ∧ u.den = 1 ∧ 0 ≤ v.num ∧ 0 ≤ u.num then
    (M.getD v.num.toNat []).getD u.num.toNat 0
  else 0

/-- Integer index recovery for the canvas write
`target[v_batch - min_v, u_batch - min_u, channel]` (src/main.py line 262);
the index arrays hold nonnegative integers in every execution that numpy
accepts. -/
def toIdx (q : ℚ) : ℕ := (pyInt q).toNat

/-- One write `target[v - min_v, u - min_u, channel] = I_cont(mv, mu)` of
`fill_channel` (src/main.py line 262): `pr.1 = (u, v)` is the output grid
point, `pr.2 = (mu, mv)` its inverse-mapped source coordinate. -/
def writeOf (interp : Interp) (chan : List (List ℚ)) (min_u min_v : ℤ)
    (pr : Pt × Pt) : (ℕ × ℕ) × ℚ :=
  ((toIdx (pr.1.2 - (min_v : ℚ)), toIdx (pr.1.1 - (min_u : ℚ))),
   interp chan pr.2.2 pr.2.1)

/-- The batch slices of `fill_channel` (src/main.py lines 250-260): batch `i`
is the slice `[i*batch_size, (i+1)*batch_size)` of the point list, for
`i = 0 .. int(len/batch_size)`; numpy slicing clamps past the end, so the
slices tile the whole list. -/
def batches (l : List (Pt × Pt)) (batch_size : ℕ) : List (List (Pt × Pt)) :=
  (List.range (l.length / batch_size + 1)).map
    (fun i => (l.drop (i * batch_size)).take batch_size)

/-- Apply a channel's writes to the canvas pixel function, in order (a later
write to the same position wins, as for numpy assignment). -/
def applyWrites (c : Fin 3) (px : ℕ → ℕ → Fin 3 → ℚ) (ws : List ((ℕ × ℕ) × ℚ)) :
    ℕ → ℕ → Fin 3 → ℚ :=
  ws.foldl (fun f w => fun a b ch =>
    if ch = c ∧ a = w.1.1 ∧ b = w.1.2 then w.2 else f a b ch) px

/-- `fill_channel(target, channel)` (src/main.py lines 247-262): fit the
channel interpolant, then write every batch's interpolated values into the
canvas at the offset-shifted integer positions. -/
def fill_channel (interp : Interp) (image : Img) (min_u min_v : ℤ)
    (pairs : List (Pt × Pt)) (c : Fin 3) (px : ℕ → ℕ → Fin 3 → ℚ) :
    ℕ → ℕ → Fin 3 → ℚ :=
  applyWrites c px
    ((batches pairs 64).flatMap
      (fun b => b.map (writeOf interp (chanImg c image) min_u min_v)))

/-- The forward-mapped source pixel grid `transformed_image` of `warp_image`
(src/main.py line 230): the full grid `orig_u_range x orig_v_range` mapped
through `H`. -/
def warpMapped (image : Img) (H : Matx) : List Pt :=
  (transform_grid ((List.range (imgW image)).map (fun (n : ℕ) => (n : ℚ)))
    ((List.range (imgH image)).map (fun (n : ℕ) => (n : ℚ))) H).2

/-- `min_u = int(np.min(transformed_image[:,0]))` (src/main.py line 232). -/
def warpMinU (image : Img) (H : Matx) : ℤ := pyInt (npMin ((warpMapped image H).map Prod.fst))

/-- `max_u = int(np.max(transformed_image[:,0]))` (src/main.py line 233). -/
def warpMaxU (image : Img) (H : Matx) : ℤ := pyInt (npMax ((warpMapped image H).map Prod.fst))

/-- `min_v = int(np.min(transformed_image[:,1]))` (src/main.py line 234). -/
def warpMinV (image : Img) (H : Matx) : ℤ := pyInt (npMin ((warpMapped image H).map Prod.snd))

/-- `max_v = int(np.max(transformed_image[:,1]))` (src/main.py line 235). -/
def warpMaxV (image : Img) (H : Matx) : ℤ := pyInt (npMax ((warpMapped image H).map Prod.snd))

/-- `warp_image` (src/main.py lines 203-268): invert and renormalise `H`,
forward-map the source pixel grid, take `int(...)` of the min/max `u` and `v`
coordinates as canvas bounds and translation offsets, inverse-map the output
grid, and fill the three channels through the interpolant. -/
def warp_image (interp : Interp) (image : Img) (H : Matx) : Canvas × ℤ × ℤ :=
  let H_inv0 := inv3 H
  let H_inv := matScaleDiv H_inv0 (ent H_inv0 2 2)
  let min_u := warpMinU image H
  let max_u := warpMaxU image H
  let min_v := warpMinV image H
  let max_v := warpMaxV image H
  let mapped_u_range := (intRange min_u max_u).map (fun (z : ℤ) => (z : ℚ))
  let mapped_v_range := (intRange min_v max_v).map (fun (z : ℤ) => (z : ℚ))
  let tg := transform_grid mapped_u_range mapped_v_range H_inv
  let pairs := List.zip tg.1 tg.2
  let px0 : ℕ → ℕ → Fin 3 → ℚ := fun _ _ _ => 0
  let px1 := fill_channel interp image min_u min_v pairs 0 px0
  let px2 := fill_channel interp image min_u min_v pairs 1 px1
  let px3 := fill_channel interp image min_u min_v pairs 2 px2
  (⟨(max_v - min_v).toNat, (max_u - min_u).toNat, px3⟩, min_u, min_v)

/-- Look an image up in a path → image table (the file system as
`stitch_N_images` sees it through `read_image` / `plt.imsave`). -/
def lookupImg {I : Type} [Inhabited I] (e : List (String × I)) (p : String) : I :=
  ((e.find? (fun kv => kv.1 = p)).map Prod.snd).getD default

/-- `stitch_N_images(paths)` (src/main.py lines 397-414), with
`stitch_2_images` abstracted as a pairwise stitcher `stitch2` (its first
argument is the image read from `path_1 = paths[i+1]`, which gets warped onto
the image read from `path_2 = paths[i]`) and the file system as a path → image
table `env`.  Each iteration computes `res = stitch_2_images(paths[i+1],
paths[i], ...)`, then executes `name = 'images' + str(1) + str(2) + '.png'`
(the constant name `"images12.png"`: the source writes `str(1)` and `str(2)`,
not `str(i)`), `paths[i] = name`, and `plt.imsave(name, res)`.  Returns the
last `res` (`none` when the loop body never runs, where Python raises
`NameError` on the undefined `res`). -/
def stitch_N_images {I : Type} [Inhabited I] (stitch2 : I → I → I)
    (env : List (String × I)) (paths : List String) : Option I :=
  let step := fun (st : List String × List (String × I) × Option I) (i : ℕ) =>
    let res := stitch2 (lookupImg st.2.1 (st.1.getD (i + 1) ""))
                       (lookupImg st.2.1 (st.1.getD i ""))
    let name := "images12.png"
    (st.1.set i name, (name, res) :: st.2.1, some res)
  ((List.range (paths.length - 1)).foldl step (paths, env, none)).2.2

open Matrix

/-- The coefficient matrix `A` of `compute_points_mat` as a Mathlib matrix
(the bridge used to state the least-squares properties); `m = 2L`. -/
def AmatF (src target : List Pt) (m : ℕ) : Matrix (Fin m) (Fin 8) ℚ :=
  Matrix.of fun i j => ent (compute_points_mat src target) i j

/-- The flattened target vector `b` as a function. -/
def bvecF (target : List Pt) (m : ℕ) : Fin m → ℚ :=
  fun i => (flatten_points target).getD i 0

/-- The eight homography parameters returned by the least-squares solve,
as a function. -/
def hvecF (src target : List Pt) : Fin 8 → ℚ :=
  fun j => (np_lstsq (compute_points_mat src target) (flatten_points target)).getD j 0

/-- The squared Euclidean norm `‖w‖²` of a vector. -/
def sumSq {m : ℕ} (w : Fin m → ℚ) : ℚ := Matrix.dotProduct w w

/-! ## Helper lemmas -/

theorem sumSq_nonneg {m : ℕ} (w : Fin m → ℚ) : 0 ≤ sumSq w :=
  Finset.sum_nonneg (fun i _ => mul_self_nonneg (w i))

theorem sumSq_eq_zero {m : ℕ} (w : Fin m → ℚ) (h : sumSq w = 0) : w = 0 := by
  funext i
  simp only [sumSq, Matrix.dotProduct] at h
  have h2 := (Finset.sum_eq_zero_iff_of_nonneg
    (fun j _ => mul_self_nonneg (w j))).1 h i (Finset.mem_univ i)
  exact mul_self_eq_zero.1 h2

/-- A solution of the normal equations `AᵀA h = Aᵀb` minimises the residual
norm `‖A v - b‖²` over all `v` — the defining property of a least-squares
solution, which is what `np.linalg.lstsq` computes. -/
theorem normal_eq_minimizes {m : ℕ} (A : Matrix (Fin m) (Fin 8) ℚ) (b : Fin m → ℚ)
    (h : Fin 8 → ℚ) (hne : (Aᵀ * A) *ᵥ h = Aᵀ *ᵥ b) (v : Fin 8 → ℚ) :
    sumSq (A *ᵥ h - b) ≤ sumSq (A *ᵥ v - b) := by
  have hr : Aᵀ *ᵥ (A *ᵥ h - b) = 0 := by
    rw [Matrix.mulVec_sub, Matrix.mulVec_mulVec, hne, sub_self]
  have key : Matrix.dotProduct (A *ᵥ h - b) (A *ᵥ (v - h)) = 0 := by
    rw [Matrix.dotProduct_mulVec, ← Matrix.mulVec_transpose, hr]
    exact Matrix.zero_dotProduct _
  have hdecomp : A *ᵥ v - b = (A *ᵥ h - b) + A *ᵥ (v - h) := by
    rw [Matrix.mulVec_sub]; abel
  rw [hdecomp]
  have expand : sumSq ((A *ᵥ h - b) + A *ᵥ (v - h))
      = sumSq (A *ᵥ h - b) + 2 * Matrix.dotProduct (A *ᵥ h - b) (A *ᵥ (v - h))
        + sumSq (A *ᵥ (v - h)) := by
    simp only [sumSq, Matrix.dotProduct_add, Matrix.add_dotProduct,
      Matrix.dotProduct_comm (A *ᵥ (v - h)) (A *ᵥ h - b)]
    ring
  rw [expand, key]
  have := sumSq_nonneg (A *ᵥ (v - h))
  linarith

/-- Unfolding one correspondence of `compute_points_mat`: the loop writes its
two rows and moves on. -/
theorem points_mat_cons (p q : Pt) (src target : List Pt) :
    compute_points_mat (p :: src) (q :: target) =
      [p.1, p.2, 1, 0, 0, 0, -p.1 * q.1, -p.2 * q.1] ::
      [0, 0, 0, p.1, p.2, 1, -p.1 * q.2, -p.2 * q.2] ::
      compute_points_mat src target := rfl

/-- Rows `2i` and `2i+1` of the system matrix hold exactly the claimed
coefficient pattern for correspondence `i`. -/
theorem points_mat_rows (src target : List Pt) (i : ℕ) (hi : i < src.length)
    (hi2 : i < target.length) :
    (compute_points_mat src target).getD (2 * i) [] =
      [(src.getD i (0, 0)).1, (src.getD i (0, 0)).2, 1, 0, 0, 0,
       -(src.getD i (0, 0)).1 * (target.getD i (0, 0)).1,
       -(src.getD i (0, 0)).2 * (target.getD i (0, 0)).1] ∧
    (compute_points_mat src target).getD (2 * i + 1) [] =
      [0, 0, 0, (src.getD i (0, 0)).1, (src.getD i (0, 0)).2, 1,
       -(src.getD i (0, 0)).1 * (target.getD i (0, 0)).2,
       -(src.getD i (0, 0)).2 * (target.getD i (0, 0)).2] := by
  induction src generalizing target i with
  | nil => simp at hi
  | cons p src ih =>
    cases target with
    | nil => simp at hi2
    | cons q target =>
      rw [points_mat_cons]
      cases i with
      | zero => exact ⟨rfl, rfl⟩
      | succ i =>
        have h2 : 2 * (i + 1) = 2 * i + 1 + 1 := by ring
        rw [h2]
        simp only [List.getD_cons_succ, List.getD_cons_succ]
        exact ih target i (by simpa using hi) (by simpa using hi2)

theorem points_mat_length (src target : List Pt) :
    (compute_points_mat src target).length = 2 * min src.length target.length := by
  induction src generalizing target with
  | nil => simp [compute_points_mat]
  | cons p src ih =>
    cases target with
    | nil => simp [compute_points_mat]
    | cons q target =>
      rw [points_mat_cons]
      simp only [List.length_cons, ih]
      omega

theorem foldl_min_le_init (xs : List ℚ) (a : ℚ) : xs.foldl min a ≤ a := by
  induction xs generalizing a with
  | nil => exact le_refl a
  | cons x xs ih => exact le_trans (ih (min a x)) (min_le_left a x)

theorem foldl_min_le_mem (xs : List ℚ) (a x : ℚ) (hx : x ∈ xs) : xs.foldl min a ≤ x := by
  induction xs generalizing a with
  | nil => simp at hx
  | cons y xs ih =>
    rcases List.mem_cons.1 hx with h | h
    · subst h
      exact le_trans (foldl_min_le_init xs (min a x)) (min_le_right a x)
    · exact ih (min a y) h

theorem foldl_min_mem (xs : List ℚ) (a : ℚ) : xs.foldl min a = a ∨ xs.foldl min a ∈ xs := by
  induction xs generalizing a with
  | nil => exact Or.inl rfl
  | cons x xs ih =>
    rcases ih (min a x) with h | h
    · rcases min_cases a x with ⟨he, _⟩ | ⟨he, _⟩
      · exact Or.inl (by rw [List.foldl_cons, h, he])
      · exact Or.inr (by rw [List.foldl_cons, h, he]; exact List.mem_cons_self x xs)
    · exact Or.inr (List.mem_cons_of_mem x h)

theorem npMin_mem (l : List ℚ) (hl : l ≠ []) : npMin l ∈ l := by
  cases l with
  | nil => exact absurd rfl hl
  | cons x xs =>
    rcases foldl_min_mem xs x with h | h
    · rw [npMin, h]; exact List.mem_cons_self x xs
    · rw [npMin]; exact List.mem_cons_of_mem x h

theorem npMin_le (l : List ℚ) (x : ℚ) (hx : x ∈ l) : npMin l ≤ x := by
  cases l with
  | nil => simp at hx
  | cons y xs =>
    rcases List.mem_cons.1 hx with h | h
    · subst h; exact foldl_min_le_init xs x
    · exact foldl_min_le_mem xs y x h

theorem foldl_max_init_le (xs : List ℚ) (a : ℚ) : a ≤ xs.foldl max a := by
  induction xs generalizing a with
  | nil => exact le_refl a
  | cons x xs ih => exact le_trans (le_max_left a x) (ih (max a x))

theorem foldl_max_mem_le (xs : List ℚ) (a x : ℚ) (hx : x ∈ xs) : x ≤ xs.foldl max a := by
  induction xs generalizing a with
  | nil => simp at hx
  | cons y xs ih =>
    rcases List.mem_cons.1 hx with h | h
    · subst h
      exact le_trans (le_max_right a x) (foldl_max_init_le xs (max a x))
    · exact ih (max a y) h

theorem foldl_max_mem (xs : List ℚ) (a : ℚ) : xs.foldl max a = a ∨ xs.foldl max a ∈ xs := by
  induction xs generalizing a with
  | nil => exact Or.inl rfl
  | cons x xs ih =>
    rcases ih (max a x) with h | h
    · rcases max_cases a x with ⟨he, _⟩ | ⟨he, _⟩
      · exact Or.inl (by rw [List.foldl_cons, h, he])
      · exact Or.inr (by rw [List.foldl_cons, h, he]; exact List.mem_cons_self x xs)
    · exact Or.inr (List.mem_cons_of_mem x h)

theorem npMax_mem (l : List ℚ) (hl : l ≠ []) : npMax l ∈ l := by
  cases l with
  | nil => exact absurd rfl hl
  | cons x xs =>
    rcases foldl_max_mem xs x with h | h
    · rw [npMax, h]; exact List.mem_cons_self x xs
    · rw [npMax]; exact List.mem_cons_of_mem x h

theorem le_npMax (l : List ℚ) (x : ℚ) (hx : x ∈ l) : x ≤ npMax l := by
  cases l with
  | nil => simp at hx
  | cons y xs =>
    rcases List.mem_cons.1 hx with h | h
    · subst h; exact foldl_max_init_le xs x
    · exact foldl_max_mem_le xs y x h

/-- `transform_points` with the identity matrix returns the points unchanged
(the perspective divide is by `w = 1`). -/
theorem transform_points_id (pts : List Pt) :
    transform_points pts [[1, 0, 0], [0, 1, 0], [0, 0, 1]] = pts := by
  unfold transform_points
  have hpt : ∀ p : Pt,
      ((ent [[1,0,0],[0,1,0],[0,0,1]] 0 0 * p.1 + ent [[1,0,0],[0,1,0],[0,0,1]] 0 1 * p.2
          + ent [[1,0,0],[0,1,0],[0,0,1]] 0 2) / wOf [[1,0,0],[0,1,0],[0,0,1]] p,
       (ent [[1,0,0],[0,1,0],[0,0,1]] 1 0 * p.1 + ent [[1,0,0],[0,1,0],[0,0,1]] 1 1 * p.2
          + ent [[1,0,0],[0,1,0],[0,0,1]] 1 2) / wOf [[1,0,0],[0,1,0],[0,0,1]] p) = p := by
    intro p
    have hw : wOf [[1,0,0],[0,1,0],[0,0,1]] p = 1 := by
      unfold wOf
      norm_num [ent]
    rw [hw]
    norm_num [ent]
  simp only [hpt]
  exact List.map_id pts

theorem zip_self (l : List Pt) : List.zip l l = l.map (fun p => (p, p)) := by
  induction l with
  | nil => rfl
  | cons x xs ih => simp [List.zip_cons_cons, ih]

/-- The batch slices of `fill_channel` tile the whole list: slice `i` is
`[i*bs, (i+1)*bs)` and `m` slices cover the first `m*bs` elements. -/
theorem tile_take (l : List (Pt × Pt)) (bs : ℕ) : ∀ m : ℕ,
    (List.range m).flatMap (fun i => (l.drop (i * bs)).take bs) = l.take (m * bs) := by
  intro m
  induction m with
  | zero => simp
  | succ m ih =>
    rw [List.range_succ, List.flatMap_append, ih]
    simp only [List.flatMap_cons, List.flatMap_nil, List.append_nil]
    have h1 : (l.take (m * bs + bs)).take (m * bs) = l.take (m * bs) := by
      rw [List.take_take]
      congr 1
      omega
    have h2 : (l.take (m * bs + bs)).drop (m * bs) = (l.drop (m * bs)).take bs :=
      (List.take_drop (m * bs) bs l).symm
    calc l.take (m * bs) ++ (l.drop (m * bs)).take bs
        = (l.take (m * bs + bs)).take (m * bs) ++ (l.take (m * bs + bs)).drop (m * bs) := by
          rw [h1, h2]
      _ = l.take (m * bs + bs) := List.take_append_drop _ _
      _ = l.take ((m + 1) * bs) := by ring_nf

/-- The batched writes of `fill_channel` are exactly one write per grid
point, in grid order (numpy slices clamp past the end, so the `int(len/64)+1`
batches tile the zipped list). -/
theorem fill_writes (pairs : List (Pt × Pt)) (w : Pt × Pt → (ℕ × ℕ) × ℚ) :
    (batches pairs 64).flatMap (fun b => b.map w) = pairs.map w := by
  unfold batches
  rw [List.flatMap_map]
  have h1 : ((List.range (pairs.length / 64 + 1)).flatMap
      fun i => ((pairs.drop (i * 64)).take 64).map w)
      = ((List.range (pairs.length / 64 + 1)).flatMap
      fun i => ((pairs.drop (i * 64)).take 64)).map w := by
    rw [List.map_flatMap]
  rw [h1, tile_take]
  congr 1
  apply List.take_of_length_le
  have := Nat.div_add_mod pairs.length 64
  have h2 : pairs.length % 64 < 64 := Nat.mod_lt _ (by omega)
  omega

theorem applyWrites_cons (c : Fin 3) (px : ℕ → ℕ → Fin 3 → ℚ) (v : (ℕ × ℕ) × ℚ)
    (ws : List ((ℕ × ℕ) × ℚ)) :
    applyWrites c px (v :: ws)
      = applyWrites c
          (fun a b ch => if ch = c ∧ a = v.1.1 ∧ b = v.1.2 then v.2 else px a b ch) ws := rfl

/-- A channel's writes leave the other channels of the canvas untouched. -/
theorem applyWrites_ne_channel (c : Fin 3) (px : ℕ → ℕ → Fin 3 → ℚ)
    (ws : List ((ℕ × ℕ) × ℚ)) (a b : ℕ) (ch : Fin 3) (hch : ch ≠ c) :
    applyWrites c px ws a b ch = px a b ch := by
  induction ws generalizing px with
  | nil => rfl
  | cons v ws ih =>
    rw [applyWrites_cons, ih]
    simp [hch]

/-- Positions never written keep their previous value. -/
theorem applyWrites_no_key (c : Fin 3) (px : ℕ → ℕ → Fin 3 → ℚ)
    (ws : List ((ℕ × ℕ) × ℚ)) (a b : ℕ) (ch : Fin 3)
    (hnk : ∀ e ∈ ws, e.1 ≠ (a, b)) :
    applyWrites c px ws a b ch = px a b ch := by
  induction ws generalizing px with
  | nil => rfl
  | cons v ws ih =>
    rw [applyWrites_cons, ih _ (fun e he => hnk e (List.mem_cons_of_mem v he))]
    have hv := hnk v (List.mem_cons_self v ws)
    have hneg : ¬(ch = c ∧ a = v.1.1 ∧ b = v.1.2) := by
      rintro ⟨-, h1, h2⟩
      apply hv
      rw [Prod.ext_iff]
      exact ⟨h1.symm, h2.symm⟩
    simp [hneg]

/-- If every write to position `(a, b)` carries the value `val` and at least
one such write exists, the filled canvas holds `val` there. -/
theorem applyWrites_lookup (c : Fin 3) (px : ℕ → ℕ → Fin 3 → ℚ)
    (ws : List ((ℕ × ℕ) × ℚ)) (a b : ℕ) (val : ℚ)
    (hall : ∀ e ∈ ws, e.1 = (a, b) → e.2 = val)
    (hmem : ∃ e ∈ ws, e.1 = (a, b)) :
    applyWrites c px ws a b c = val := by
  induction ws generalizing px with
  | nil => obtain ⟨e, he, -⟩ := hmem; simp at he
  | cons v ws ih =>
    rw [applyWrites_cons]
    by_cases hws : ∃ e ∈ ws, e.1 = (a, b)
    · exact ih _ (fun e he => hall e (List.mem_cons_of_mem v he)) hws
    · have hv : v.1 = (a, b) := by
        obtain ⟨e, he, hee⟩ := hmem
        rcases List.mem_cons.1 he with h | h
        · rw [← h]; exact hee
        · exact absurd ⟨e, h, hee⟩ hws
      have hnk : ∀ e ∈ ws, e.1 ≠ (a, b) := fun e he hee => hws ⟨e, he, hee⟩
      rw [applyWrites_no_key c _ ws a b c hnk]
      have hpos : (c = c ∧ a = v.1.1 ∧ b = v.1.2) := ⟨rfl, by rw [hv], by rw [hv]⟩
      simp only [hpos, if_pos]
      exact hall v (List.mem_cons_self v ws) hv

theorem pyInt_natCast (n : ℕ) : pyInt ((n : ℕ) : ℚ) = n := by
  unfold pyInt
  rw [if_neg (not_lt.2 (by positivity))]
  exact Int.floor_natCast n

theorem warpMapped_id (image : Img) :
    warpMapped image [[1, 0, 0], [0, 1, 0], [0, 0, 1]] =
      ((List.range (imgH image)).map (fun (n : ℕ) => (n : ℚ))).flatMap
        (fun v => ((List.range (imgW image)).map (fun (n : ℕ) => (n : ℚ))).map (fun u => (u, v))) := by
  unfold warpMapped transform_grid
  exact transform_points_id _

theorem grid_mem_iff (W H : ℕ) (p : Pt) :
    p ∈ ((List.range H).map (fun (n : ℕ) => (n : ℚ))).flatMap
        (fun v => ((List.range W).map (fun (n : ℕ) => (n : ℚ))).map (fun u => (u, v)))
      ↔ ∃ j, j < W ∧ ∃ i, i < H ∧ p = ((j : ℚ), (i : ℚ)) := by
  constructor
  · intro hp
    obtain ⟨v, hv, hp2⟩ := List.mem_flatMap.1 hp
    obtain ⟨i, hi, rfl⟩ := List.mem_map.1 hv
    obtain ⟨u, hu, rfl⟩ := List.mem_map.1 hp2
    obtain ⟨j, hj, rfl⟩ := List.mem_map.1 hu
    exact ⟨j, List.mem_range.1 hj, i, List.mem_range.1 hi, rfl⟩
  · rintro ⟨j, hj, i, hi, rfl⟩
    refine List.mem_flatMap.2 ⟨(i : ℚ), List.mem_map.2 ⟨i, List.mem_range.2 hi, rfl⟩, ?_⟩
    exact List.mem_map.2 ⟨(j : ℚ), List.mem_map.2 ⟨j, List.mem_range.2 hj, rfl⟩, rfl⟩

theorem warpBounds_id (image : Img) (hW : 1 ≤ imgW image) (hH : 1 ≤ imgH image) :
    warpMinU image [[1, 0, 0], [0, 1, 0], [0, 0, 1]] = 0 ∧
    warpMaxU image [[1, 0, 0], [0, 1, 0], [0, 0, 1]] = ((imgW image - 1 : ℕ) : ℤ) ∧
    warpMinV image [[1, 0, 0], [0, 1, 0], [0, 0, 1]] = 0 ∧
    warpMaxV image [[1, 0, 0], [0, 1, 0], [0, 0, 1]] = ((imgH image - 1 : ℕ) : ℤ) := by
  set W := imgW image with hWdef
  set H := imgH image with hHdef
  have hgr := warpMapped_id image
  have hmemf : ∀ x ∈ (warpMapped image [[1,0,0],[0,1,0],[0,0,1]]).map Prod.fst,
      ∃ j, j < W ∧ x = (j : ℚ) := by
    intro x hx
    rw [hgr] at hx
    obtain ⟨p, hp, rfl⟩ := List.mem_map.1 hx
    obtain ⟨j, hj, i, hi, rfl⟩ := (grid_mem_iff W H p).1 hp
    exact ⟨j, hj, rfl⟩
  have hmems : ∀ x ∈ (warpMapped image [[1,0,0],[0,1,0],[0,0,1]]).map Prod.snd,
      ∃ i, i < H ∧ x = (i : ℚ) := by
    intro x hx
    rw [hgr] at hx
    obtain ⟨p, hp, rfl⟩ := List.mem_map.1 hx
    obtain ⟨j, hj, i, hi, rfl⟩ := (grid_mem_iff W H p).1 hp
    exact ⟨i, hi, rfl⟩
  have hpmem : ∀ j i : ℕ, j < W → i < H →
      (((j : ℚ), (i : ℚ)) : Pt) ∈ warpMapped image [[1,0,0],[0,1,0],[0,0,1]] := by
    intro j i hj hi
    rw [hgr]
    exact (grid_mem_iff W H _).2 ⟨j, hj, i, hi, rfl⟩
  have hf0 : ((0 : ℚ)) ∈ (warpMapped image [[1,0,0],[0,1,0],[0,0,1]]).map Prod.fst := by
    have := hpmem 0 0 (by omega) (by omega)
    exact List.mem_map.2 ⟨_, this, by norm_num⟩
  have hfW : (((W - 1 : ℕ) : ℚ)) ∈ (warpMapped image [[1,0,0],[0,1,0],[0,0,1]]).map Prod.fst := by
    have := hpmem (W - 1) 0 (by omega) (by omega)
    exact List.mem_map.2 ⟨_, this, rfl⟩
  have hs0 : ((0 : ℚ)) ∈ (warpMapped image [[1,0,0],[0,1,0],[0,0,1]]).map Prod.snd := by
    have := hpmem 0 0 (by omega) (by omega)
    exact List.mem_map.2 ⟨_, this, by norm_num⟩
  have hsH : (((H - 1 : ℕ) : ℚ)) ∈ (warpMapped image [[1,0,0],[0,1,0],[0,0,1]]).map Prod.snd := by
    have := hpmem 0 (H - 1) (by omega) (by omega)
    exact List.mem_map.2 ⟨_, this, rfl⟩
  refine ⟨?_, ?_, ?_, ?_⟩
  · unfold warpMinU
    have hmin : npMin ((warpMapped image [[1,0,0],[0,1,0],[0,0,1]]).map Prod.fst) = 0 := by
      refine le_antisymm (npMin_le _ _ hf0) ?_
      obtain ⟨j, hj, he⟩ := hmemf _ (npMin_mem _ (List.ne_nil_of_mem hf0))
      rw [he]
      positivity
    rw [hmin]
    exact pyInt_natCast 0
  · unfold warpMaxU
    have hmax : npMax ((warpMapped image [[1,0,0],[0,1,0],[0,0,1]]).map Prod.fst)
        = ((W - 1 : ℕ) : ℚ) := by
      refine le_antisymm ?_ (le_npMax _ _ hfW)
      obtain ⟨j, hj, he⟩ := hmemf _ (npMax_mem _ (List.ne_nil_of_mem hfW))
      rw [he]
      exact_mod_cast Nat.le_sub_one_of_lt hj
    rw [hmax]
    exact pyInt_natCast (W - 1)
  · unfold warpMinV
    have hmin : npMin ((warpMapped image [[1,0,0],[0,1,0],[0,0,1]]).map Prod.snd) = 0 := by
      refine le_antisymm (npMin_le _ _ hs0) ?_
      obtain ⟨i, hi, he⟩ := hmems _ (npMin_mem _ (List.ne_nil_of_mem hs0))
      rw [he]
      positivity
    rw [hmin]
    exact pyInt_natCast 0
  · unfold warpMaxV
    have hmax : npMax ((warpMapped image [[1,0,0],[0,1,0],[0,0,1]]).map Prod.snd)
        = ((H - 1 : ℕ) : ℚ) := by
      refine le_antisymm ?_ (le_npMax _ _ hsH)
      obtain ⟨i, hi, he⟩ := hmems _ (npMax_mem _ (List.ne_nil_of_mem hsH))
      rw [he]
      exact_mod_cast Nat.le_sub_one_of_lt hi
    rw [hmax]
    exact pyInt_natCast (H - 1)

theorem solveCols_length : ∀ (n : ℕ) (rows : List (List ℚ × ℚ)), (solveCols n rows).length = n
  | 0, _ => rfl
  | n + 1, rows => by
    unfold solveCols
    cases h : pickPivot rows with
    | none => simpa using solveCols_length n _
    | some pr => simpa using solveCols_length n _

theorem np_lstsq_length (A : Matx) (b : List ℚ) : (np_lstsq A b).length = 8 :=
  solveCols_length 8 _

theorem eight_elems (l : List ℚ) (hl : l.length = 8) :
    ∃ x0 x1 x2 x3 x4 x5 x6 x7, l = [x0, x1, x2, x3, x4, x5, x6, x7] := by
  rcases l with _ | ⟨x0, _ | ⟨x1, _ | ⟨x2, _ | ⟨x3, _ | ⟨x4, _ | ⟨x5, _ | ⟨x6, _ | ⟨x7, _ | ⟨x8, t⟩⟩⟩⟩⟩⟩⟩⟩⟩ <;>
    simp only [List.length_cons, List.length_nil] at hl <;> first | omega | skip
  exact ⟨x0, x1, x2, x3, x4, x5, x6, x7, rfl⟩

/-- The least-squares solve always yields eight parameters; appending `1` and
reshaping gives the 3x3 matrix whose bottom-right entry is the fixed `1`. -/
theorem homography_mat_entries (src target : List Pt) :
    compute_homography_mat src target =
      [[(np_lstsq (compute_points_mat src target) (flatten_points target)).getD 0 0,
        (np_lstsq (compute_points_mat src target) (flatten_points target)).getD 1 0,
        (np_lstsq (compute_points_mat src target) (flatten_points target)).getD 2 0],
       [(np_lstsq (compute_points_mat src target) (flatten_points target)).getD 3 0,
        (np_lstsq (compute_points_mat src target) (flatten_points target)).getD 4 0,
        (np_lstsq (compute_points_mat src target) (flatten_points target)).getD 5 0],
       [(np_lstsq (compute_points_mat src target) (flatten_points target)).getD 6 0,
        (np_lstsq (compute_points_mat src target) (flatten_points target)).getD 7 0, 1]] := by
  obtain ⟨x0, x1, x2, x3, x4, x5, x6, x7, hl⟩ :=
    eight_elems _ (np_lstsq_length (compute_points_mat src target) (flatten_points target))
  simp only [compute_homography_mat]
  rw [hl]
  rfl

/-! ## Claim theorems -/

/-- C5 (amended): the homography estimator never reports a degenerate-input
condition.  For every input correspondence list — including fewer than 4
pairs, collinear points, or any other rank-deficient system —
`compute_homography_mat` returns a 3x3 matrix whose bottom-right entry is the
fixed `1`: `np.linalg.lstsq` returns a least-squares solution for
rank-deficient systems instead of raising an error. -/
theorem c5_estimator_never_fails (src target : List Pt) :
    (compute_homography_mat src target).length = 3 ∧
    ent (compute_homography_mat src target) 2 2 = 1 := by
  rw [homography_mat_entries src target]
  exact ⟨rfl, rfl⟩

set_option maxRecDepth 2000 in
/-- C5 counterexample: the claim says the estimator fails whenever the input
has fewer than 4 pairs; with a single correspondence (L = 1) the estimator
does not fail — it returns a well-formed 3x3 homography with bottom-right
entry 1 (`np.linalg.lstsq` solves the underdetermined system by least
squares rather than raising). -/
theorem c5_single_pair_returns_matrix :
    (compute_homography_mat [((1 : ℚ), (0 : ℚ))] [((2 : ℚ), (0 : ℚ))]).length = 3 ∧
    ent (compute_homography_mat [((1 : ℚ), (0 : ℚ))] [((2 : ℚ), (0 : ℚ))]) 2 2 = 1 := by
  decide

set_option maxRecDepth 4000 in
/-- C8: on source points `[(0,0),(10,0),(10,10),(0,10)]` and target points
`[(0,0),(20,0),(20,20),(0,20)]` the estimator returns exactly
`diag(2, 2, 1)` (stronger than the claimed "within tolerance"), and
transforming `(5,5)` with that homography yields exactly `(10,10)`. -/
theorem c8_pure_scale_scenario :
    compute_homography_mat [(0, 0), (10, 0), (10, 10), (0, 10)]
        [(0, 0), (20, 0), (20, 20), (0, 20)] = [[2, 0, 0], [0, 2, 0], [0, 0, 1]] ∧
    transform_points [(5, 5)]
        (compute_homography_mat [(0, 0), (10, 0), (10, 10), (0, 10)]
          [(0, 0), (20, 0), (20, 20), (0, 20)]) = [(10, 10)] := by
  decide

/-- C9: the result of `get_inliers` is independent of its `T` argument — any
two caller-supplied values produce identical behaviour, because line 136
unconditionally recomputes `T = min(len(src_points), 10)` before any use of
the parameter. -/
theorem c9_get_inliers_T_ignored (sampler : ℕ → ℕ → ℕ → List ℕ)
    (src_points target_points : List InPt) (d : ℚ) (s N : ℕ) (T1 T2 : Option ℕ) :
    get_inliers sampler src_points target_points d s N T1 =
      get_inliers sampler src_points target_points d s N T2 := rfl

/-- C1 evaluation: `stitch_N_images` on three paths with images `5, 6, 7` and
the pairwise stitcher `(a, b) ↦ 10a + b` returns `stitch2(image3, image2) =
76`, unchanged when the first image is replaced by `999` — the first pairwise
result (`stitch2(6, 5) = 65`) is never fed into the second stitch, refuting
the claimed feed-forward chaining under either operand order. -/
theorem c1_stitchN_ignores_previous_result :
    stitch_N_images (fun a b => 10 * a + b) [("p0", (5 : ℕ)), ("p1", 6), ("p2", 7)]
        ["p0", "p1", "p2"] = some (10 * 7 + 6) ∧
    stitch_N_images (fun a b => 10 * a + b) [("p0", (999 : ℕ)), ("p1", 6), ("p2", 7)]
        ["p0", "p1", "p2"] = some (10 * 7 + 6) ∧
    some (10 * 7 + 6) ≠ some (10 * (10 * 6 + 5) + 7) ∧
    some (10 * 7 + 6) ≠ some (10 * 7 + (10 * 6 + 5)) := by
  refine ⟨rfl, rfl, by decide, by decide⟩

/-- C7: a point whose third homogeneous component under the candidate
homography is zero is excluded from the RANSAC inlier set — numpy's division
by zero produces inf/nan coordinates whose distance fails the `dist <= d`
test (it does not raise), so the pipeline continues without that point. -/
theorem c7_zero_w_point_excluded (src target : List Pt) (d : ℚ) (H : Matx) (i : ℕ)
    (hw : wOf H (src.getD i (0, 0)) = 0) :
    i ∉ inlierIndices src target d H := by
  intro hmem
  unfold inlierIndices at hmem
  rw [List.mem_filter] at hmem
  have h2 := of_decide_eq_true hmem.2
  exact h2.1 hw

/-- Witness for C7 at a concrete input: `H = [[1,0,0],[0,1,0],[-1,0,1]]` maps
`(1,3)` to a zero third homogeneous component, and index 0 is not an inlier. -/
theorem c7_zero_w_point_excluded_witness :
    wOf [[1, 0, 0], [0, 1, 0], [-1, 0, 1]] ([((1 : ℚ), (3 : ℚ))].getD 0 (0, 0)) = 0 ∧
    0 ∉ inlierIndices [((1 : ℚ), (3 : ℚ))] [(0, 0)] 1 [[1, 0, 0], [0, 1, 0], [-1, 0, 1]] :=
  ⟨by decide, c7_zero_w_point_excluded _ _ _ _ _ (by decide)⟩

set_option maxRecDepth 4000 in
/-- On four identical source points, every RANSAC sample fits the degenerate
system whose least-squares solution maps `(0,0)` to `(0,0)` (the mean of the
targets), so no target at distance greater than `d` is an inlier: the round's
inlier set is empty.  (Every solution of the normal equations shares the two
components that determine the image of `(0,0)`, so this does not depend on
the free-variable convention of `np_lstsq`.) -/
theorem degenerate_round_empty :
    getInlierIndices [((0 : ℚ), (0 : ℚ)), (0, 0), (0, 0), (0, 0)]
      [(10, 0), (0, 10), (-10, 0), (0, -10)] 1 [0, 1, 2, 3] = [] := by decide

theorem getD_replicate_nil (n k : ℕ) :
    (List.replicate n ([] : List ℕ)).getD k [] = [] := by
  induction n generalizing k with
  | zero => cases k <;> rfl
  | succ n ih => cases k with
    | zero => rfl
    | succ k => exact ih k

/-- With four identical source points, every round of the RANSAC loop records
an empty inlier set and never triggers refinement (`0 >= T = 4` fails). -/
theorem degenerate_history (n : ℕ) :
    ransacHistory [((0 : ℚ), (0 : ℚ)), (0, 0), (0, 0), (0, 0)]
      [(10, 0), (0, 10), (-10, 0), (0, -10)] 1 4 (fun _ => [0, 1, 2, 3]) n
      = List.replicate n [] := by
  induction n with
  | zero => rfl
  | succ n ih =>
    simp only [ransacHistory, ih, degenerate_round_empty]
    norm_num
    exact (List.replicate_succ' n _).symm

set_option maxRecDepth 4000 in
/-- C2 is violated by the code: on the correspondence set with four identical
source points `(0,0)` and targets `(10,0), (0,10), (-10,0), (0,-10)` (equal
pre-filter lengths, so the assert passes), `get_inliers` with the default
`d = 1`, `s = 4`, `N = 2000` returns the empty inlier set — size `0 < s` —
contradicting the docstring note "the number of returned inliers >= s" and
the spec's InlierSet invariant.  With four points, `np.random.choice(4, 4,
replace=False)` can only return a permutation of all four indices, and the
normal equations are invariant under that permutation, so the constant
sampler below loses no generality. -/
theorem c2_degenerate_returns_empty :
    get_inliers (fun _ _ _ => [0, 1, 2, 3])
      [InPt.tup (0, 0), InPt.tup (0, 0), InPt.tup (0, 0), InPt.tup (0, 0)]
      [InPt.tup (10, 0), InPt.tup (0, 10), InPt.tup (-10, 0), InPt.tup (0, -10)]
      1 4 2000 none = ([], []) := by
  show
    (select [((0 : ℚ), (0 : ℚ)), (0, 0), (0, 0), (0, 0)]
      ((ransacHistory [((0 : ℚ), (0 : ℚ)), (0, 0), (0, 0), (0, 0)]
          [(10, 0), (0, 10), (-10, 0), (0, -10)] 1 4 (fun _ => [0, 1, 2, 3]) 2000).getD
        (argmaxIdx ((ransacHistory [((0 : ℚ), (0 : ℚ)), (0, 0), (0, 0), (0, 0)]
          [(10, 0), (0, 10), (-10, 0), (0, -10)] 1 4 (fun _ => [0, 1, 2, 3]) 2000).map
            List.length)) []),
     select [((10 : ℚ), (0 : ℚ)), (0, 10), (-10, 0), (0, -10)]
      ((ransacHistory [((0 : ℚ), (0 : ℚ)), (0, 0), (0, 0), (0, 0)]
          [(10, 0), (0, 10), (-10, 0), (0, -10)] 1 4 (fun _ => [0, 1, 2, 3]) 2000).getD
        (argmaxIdx ((ransacHistory [((0 : ℚ), (0 : ℚ)), (0, 0), (0, 0), (0, 0)]
          [(10, 0), (0, 10), (-10, 0), (0, -10)] 1 4 (fun _ => [0, 1, 2, 3]) 2000).map
            List.length)) [])) = ([], [])
  rw [degenerate_history 2000, getD_replicate_nil]
  rfl

theorem filterPts_map_tup (l : List Pt) : filterPts (l.map InPt.tup) = l := by
  induction l with
  | nil => rfl
  | cons p l ih =>
    simp only [List.map_cons, filterPts, List.filterMap_cons] at ih ⊢
    rw [ih]

/-- C10: the pre-RANSAC filtering of `get_inliers` drops every
`numpy.ndarray`-typed point and filters the two lists independently.  With an
ndarray at index `i = a.length` of the source list only (equal input lengths,
so the assert passes silently), the filtered source is one point shorter than
the filtered target, pairs before `i` stay aligned, and every pair from `i`
on is misaligned: position `j` of the filtered source holds original source
point `j + 1`. -/
theorem c10_ndarray_dropped_misaligns (a c target : List Pt) (p : Pt)
    (hlen : a.length + 1 + c.length = target.length) :
    filterPts (a.map InPt.tup ++ [InPt.arr p] ++ c.map InPt.tup) = a ++ c ∧
    filterPts (target.map InPt.tup) = target ∧
    (filterPts (a.map InPt.tup ++ [InPt.arr p] ++ c.map InPt.tup)).length + 1
      = target.length ∧
    (∀ j, j < a.length →
      (filterPts (a.map InPt.tup ++ [InPt.arr p] ++ c.map InPt.tup)).getD j (0, 0)
        = (a ++ [p] ++ c).getD j (0, 0)) ∧
    (∀ j, a.length ≤ j →
      (filterPts (a.map InPt.tup ++ [InPt.arr p] ++ c.map InPt.tup)).getD j (0, 0)
        = (a ++ [p] ++ c).getD (j + 1) (0, 0)) := by
  have hfil : filterPts (a.map InPt.tup ++ [InPt.arr p] ++ c.map InPt.tup) = a ++ c := by
    simp only [filterPts, List.filterMap_append] at *
    have h1 : List.filterMap (fun p => match p with | .tup q => some q | .arr _ => none)
        (a.map InPt.tup) = a := filterPts_map_tup a
    have h2 : List.filterMap (fun p => match p with | .tup q => some q | .arr _ => none)
        (c.map InPt.tup) = c := filterPts_map_tup c
    rw [h1, h2]
    simp [List.filterMap_cons]
  refine ⟨hfil, filterPts_map_tup target, ?_, ?_, ?_⟩
  · rw [hfil]
    simp only [List.length_append]
    omega
  · intro j hj
    rw [hfil]
    rw [List.getD_append _ _ _ _ (by omega : j < a.length)]
    rw [List.append_assoc]
    rw [List.getD_append _ _ _ _ (by omega : j < a.length)]
  · intro j hj
    rw [hfil]
    rw [List.getD_append_right _ _ _ _ (by omega : a.length ≤ j)]
    rw [List.append_assoc]
    rw [List.getD_append_right _ _ _ _ (by omega : a.length ≤ j + 1)]
    have : ([p] ++ c).getD (j + 1 - a.length) (0, 0) = c.getD (j - a.length) (0, 0) := by
      rw [List.getD_append_right _ _ _ _ (by simp; omega : [p].length ≤ j + 1 - a.length)]
      congr 1
      simp
      omega
    rw [this]

/-- Witness for C10 at a concrete input: source `[(1,1), ndarray (9,9), (2,2),
(3,3)]` and an all-tuple target of the same length 4; the filtered source is
`[(1,1), (2,2), (3,3)]`. -/
theorem c10_ndarray_dropped_misaligns_witness :
    ([((1 : ℚ), (1 : ℚ))].length + 1 + [((2 : ℚ), (2 : ℚ)), (3, 3)].length
        = [((5 : ℚ), (5 : ℚ)), (6, 6), (7, 7), (8, 8)].length) ∧
    filterPts ([((1 : ℚ), (1 : ℚ))].map InPt.tup ++ [InPt.arr (9, 9)] ++
        [((2 : ℚ), (2 : ℚ)), (3, 3)].map InPt.tup) = [(1, 1)] ++ [(2, 2), (3, 3)] :=
  ⟨by decide,
   (c10_ndarray_dropped_misaligns [((1 : ℚ), (1 : ℚ))] [((2 : ℚ), (2 : ℚ)), (3, 3)]
      [((5 : ℚ), (5 : ℚ)), (6, 6), (7, 7), (8, 8)] (9, 9) (by decide)).1⟩

/-- C4: for `L` correspondences of equal length, the estimator builds the
`2L x 8` system in which correspondence `i` contributes row `2i =
[x_s, y_s, 1, 0, 0, 0, -x_s*x_t, -y_s*x_t]` and row `2i+1 =
[0, 0, 0, x_s, y_s, 1, -x_s*y_t, -y_s*y_t]`; it solves against the flattened
target coordinates by least squares (the hypothesis `hne` states that the
computed parameter vector satisfies the normal equations — the property of
the `np.linalg.lstsq` output — and the conclusion derives from it that the
vector minimises the residual norm, and solves `A h = b` exactly whenever the
system is consistent, as it is for `L = 4` points in general position);
appends the fixed ninth parameter `1` and reshapes to 3x3, so the returned
homography always has bottom-right entry `1`. -/
theorem c4_estimator_system_least_squares (src target : List Pt)
    (hL : src.length = target.length)
    (hne : ((AmatF src target (2 * src.length))ᵀ * AmatF src target (2 * src.length)) *ᵥ
        hvecF src target
      = (AmatF src target (2 * src.length))ᵀ *ᵥ bvecF target (2 * src.length)) :
    (compute_points_mat src target).length = 2 * src.length ∧
    (∀ i, i < src.length →
      (compute_points_mat src target).getD (2 * i) [] =
        [(src.getD i (0, 0)).1, (src.getD i (0, 0)).2, 1, 0, 0, 0,
         -(src.getD i (0, 0)).1 * (target.getD i (0, 0)).1,
         -(src.getD i (0, 0)).2 * (target.getD i (0, 0)).1] ∧
      (compute_points_mat src target).getD (2 * i + 1) [] =
        [0, 0, 0, (src.getD i (0, 0)).1, (src.getD i (0, 0)).2, 1,
         -(src.getD i (0, 0)).1 * (target.getD i (0, 0)).2,
         -(src.getD i (0, 0)).2 * (target.getD i (0, 0)).2]) ∧
    compute_homography_mat src target =
      [[hvecF src target 0, hvecF src target 1, hvecF src target 2],
       [hvecF src target 3, hvecF src target 4, hvecF src target 5],
       [hvecF src target 6, hvecF src target 7, 1]] ∧
    ent (compute_homography_mat src target) 2 2 = 1 ∧
    (∀ v : Fin 8 → ℚ,
      sumSq (AmatF src target (2 * src.length) *ᵥ hvecF src target
          - bvecF target (2 * src.length)) ≤
        sumSq (AmatF src target (2 * src.length) *ᵥ v - bvecF target (2 * src.length))) ∧
    ((∃ w : Fin 8 → ℚ,
        AmatF src target (2 * src.length) *ᵥ w = bvecF target (2 * src.length)) →
      AmatF src target (2 * src.length) *ᵥ hvecF src target
        = bvecF target (2 * src.length)) := by
  refine ⟨?_, ?_, ?_, ?_, ?_, ?_⟩
  · rw [points_mat_length, hL, min_self]
  · intro i hi
    exact points_mat_rows src target i hi (hL ▸ hi)
  · exact homography_mat_entries src target
  · rw [homography_mat_entries src target]
    rfl
  · exact normal_eq_minimizes _ _ _ hne
  · rintro ⟨w, hw⟩
    have hmin := normal_eq_minimizes _ _ _ hne w
    rw [hw, sub_self] at hmin
    have hz : sumSq (AmatF src target (2 * src.length) *ᵥ hvecF src target
        - bvecF target (2 * src.length)) = 0 := by
      have h0 : sumSq (0 : Fin (2 * src.length) → ℚ) = 0 := Matrix.zero_dotProduct _
      have := sumSq_nonneg (AmatF src target (2 * src.length) *ᵥ hvecF src target
        - bvecF target (2 * src.length))
      linarith [hmin, h0]
    have := sumSq_eq_zero _ hz
    exact sub_eq_zero.1 this

set_option maxRecDepth 8000 in
/-- Witness for C4 at a concrete input (the unit square scaled by 3): both
hypotheses hold — the lengths agree and the computed parameter vector
satisfies the normal equations — so the conclusions apply; in particular the
returned homography has bottom-right entry `1`. -/
theorem c4_estimator_system_least_squares_witness :
    (([((0 : ℚ), (0 : ℚ)), (1, 0), (1, 1), (0, 1)] : List Pt).length
      = ([((0 : ℚ), (0 : ℚ)), (3, 0), (3, 3), (0, 3)] : List Pt).length) ∧
    ent (compute_homography_mat [((0 : ℚ), (0 : ℚ)), (1, 0), (1, 1), (0, 1)]
      [((0 : ℚ), (0 : ℚ)), (3, 0), (3, 3), (0, 3)]) 2 2 = 1 :=
  ⟨rfl,
   (c4_estimator_system_least_squares [((0 : ℚ), (0 : ℚ)), (1, 0), (1, 1), (0, 1)]
      [((0 : ℚ), (0 : ℚ)), (3, 0), (3, 3), (0, 3)] rfl (by decide)).2.2.2.1⟩

/-- Recovery of an integer write index from its rational grid coordinate. -/
theorem toIdx_natCast (n : ℕ) : toIdx ((n : ℕ) : ℚ) = n := by
  unfold toIdx
  rw [pyInt_natCast]
  exact Int.toNat_natCast n

/-- `np.arange(0, n)` cast to rationals is the rational range `0 .. n-1`. -/
theorem intRange_zero_cast (n : ℕ) :
    (intRange 0 ((n : ℕ) : ℤ)).map (fun (z : ℤ) => (z : ℚ))
      = (List.range n).map (fun (k : ℕ) => (k : ℚ)) := by
  unfold intRange
  rw [List.map_map, sub_zero, Int.toNat_natCast]
  apply List.map_congr_left
  intro k hk
  simp [Function.comp]

/-- Inverting and renormalising the identity homography gives it back. -/
theorem inv3_id :
    matScaleDiv (inv3 [[1, 0, 0], [0, 1, 0], [0, 0, 1]])
      (ent (inv3 [[1, 0, 0], [0, 1, 0], [0, 0, 1]]) 2 2) = [[1, 0, 0], [0, 1, 0], [0, 0, 1]] := by
  decide

/-- `transform_grid` under the identity homography returns the grid twice. -/
theorem transform_grid_id (uR vR : List ℚ) :
    transform_grid uR vR [[1, 0, 0], [0, 1, 0], [0, 0, 1]]
      = (vR.flatMap (fun v => uR.map (fun u => (u, v))),
         vR.flatMap (fun v => uR.map (fun u => (u, v)))) := by
  simp only [transform_grid]
  rw [transform_points_id]

/-- Core of the identity-warp fill: with zero offsets, the write generated by
grid point `(j, i)` lands at canvas position `(i, j)` and carries the
interpolant's value at `(i, j)`; positions inside the grid therefore receive
exactly the interpolated value. -/
theorem applyWrites_grid_lookup (c : Fin 3) (px : ℕ → ℕ → Fin 3 → ℚ)
    (interp : Interp) (chan : List (List ℚ)) (W2 H2 i j : ℕ)
    (hi : i < H2) (hj : j < W2) :
    applyWrites c px
      (List.map (writeOf interp chan 0 0 ∘ fun p => (p, p))
        ((List.map (fun (k : ℕ) => (k : ℚ)) (List.range H2)).flatMap fun v =>
          List.map ((fun u => (u, v)) ∘ fun (k : ℕ) => (k : ℚ)) (List.range W2)))
      i j c = interp chan (i : ℚ) (j : ℚ) := by
  apply applyWrites_lookup
  · intro e he heq
    obtain ⟨p, hp, rfl⟩ := List.mem_map.1 he
    obtain ⟨v, hv, hp2⟩ := List.mem_flatMap.1 hp
    obtain ⟨i2, hi2, rfl⟩ := List.mem_map.1 hv
    obtain ⟨j2, hj2, rfl⟩ := List.mem_map.1 hp2
    simp only [Function.comp, writeOf, Int.cast_zero, sub_zero, toIdx_natCast] at heq ⊢
    rw [Prod.mk.injEq] at heq
    rw [heq.1, heq.2]
  · refine ⟨(writeOf interp chan 0 0 ∘ fun p => (p, p)) ((j : ℚ), (i : ℚ)),
      List.mem_map.2 ⟨((j : ℚ), (i : ℚ)), ?_, rfl⟩, ?_⟩
    · exact List.mem_flatMap.2 ⟨(i : ℚ), List.mem_map.2 ⟨i, List.mem_range.2 hi, rfl⟩,
        List.mem_map.2 ⟨j, List.mem_range.2 hj, rfl⟩⟩
    · simp [Function.comp, writeOf, Int.cast_zero, sub_zero, toIdx_natCast]

/-- Pixel values of the identity warp: output position `(i, j)` holds the
input pixel `(i, j)` (channel by channel). -/
theorem c3_core (interp : Interp) (image : Img)
    (hW : 1 ≤ imgW image) (hH : 1 ≤ imgH image)
    (hknot : ∀ ch : Fin 3, ∀ v : ℕ, v < imgH image → ∀ u : ℕ, u < imgW image →
      interp (chanImg ch image) (v : ℚ) (u : ℚ)
        = pxChan ch ((image.getD v []).getD u (0, 0, 0)))
    (i j : ℕ) (hi : i < imgH image - 1) (hj : j < imgW image - 1) (ch : Fin 3) :
    (warp_image interp image [[1, 0, 0], [0, 1, 0], [0, 0, 1]]).1.px i j ch
      = pxChan ch ((image.getD i []).getD j (0, 0, 0)) := by
  have hb := warpBounds_id image hW hH
  simp only [warp_image]
  rw [hb.1, hb.2.1, hb.2.2.1, hb.2.2.2, inv3_id, intRange_zero_cast, intRange_zero_cast,
    transform_grid_id]
  simp only [zip_self]
  simp only [fill_channel, fill_writes, List.map_map]
  have hch : ch = 0 ∨ ch = 1 ∨ ch = 2 := by
    rcases ch with ⟨v, hv⟩
    interval_cases v
    · exact Or.inl rfl
    · exact Or.inr (Or.inl rfl)
    · exact Or.inr (Or.inr rfl)
  rcases hch with rfl | rfl | rfl
  · rw [applyWrites_ne_channel 2 _ _ _ _ 0 (by decide),
      applyWrites_ne_channel 1 _ _ _ _ 0 (by decide),
      applyWrites_grid_lookup 0 _ interp (chanImg 0 image) _ _ i j hi hj]
    exact hknot 0 i (by omega) j (by omega)
  · rw [applyWrites_ne_channel 2 _ _ _ _ 1 (by decide),
      applyWrites_grid_lookup 1 _ interp (chanImg 1 image) _ _ i j hi hj]
    exact hknot 1 i (by omega) j (by omega)
  · rw [applyWrites_grid_lookup 2 _ interp (chanImg 2 image) _ _ i j hi hj]
    exact hknot 2 i (by omega) j (by omega)

/-- C6 (amended): the canvas bounds and translation offsets of `warp_image`
are obtained by Python `int()` truncation toward zero of the minimum and
maximum mapped `u` and `v` coordinates (floor for nonnegative values,
ceiling for negative ones — the final conjunct), not by floor of the minima
and ceiling of the maxima; `min_u` and `min_v` may still be negative. -/
theorem c6_bounds_by_truncation (interp : Interp) (image : Img) (H : Matx)
    (h1 : 1 ≤ imgH image) (h2 : 1 ≤ imgW image) :
    (warp_image interp image H).2.1 = pyInt (npMin ((warpMapped image H).map Prod.fst)) ∧
    (warp_image interp image H).2.2 = pyInt (npMin ((warpMapped image H).map Prod.snd)) ∧
    (warp_image interp image H).1.rows
      = (pyInt (npMax ((warpMapped image H).map Prod.snd))
          - pyInt (npMin ((warpMapped image H).map Prod.snd))).toNat ∧
    (warp_image interp image H).1.cols
      = (pyInt (npMax ((warpMapped image H).map Prod.fst))
          - pyInt (npMin ((warpMapped image H).map Prod.fst))).toNat ∧
    (∀ q : ℚ, pyInt q = if q < 0 then ⌈q⌉ else ⌊q⌋) := by
  refine ⟨rfl, rfl, rfl, rfl, fun q => ?_⟩
  unfold pyInt
  split
  · rw [Int.floor_neg, neg_neg]
  · rfl

/-- Witness for C6 (amended) at a concrete 1x1 image. -/
theorem c6_bounds_by_truncation_witness :
    (1 ≤ imgH [[((0:ℚ),(0:ℚ),(0:ℚ))]]) ∧ (1 ≤ imgW [[((0:ℚ),(0:ℚ),(0:ℚ))]]) ∧
    (warp_image interpModel [[((0:ℚ),(0:ℚ),(0:ℚ))]] [[1,0,0],[0,1,0],[0,0,1]]).2.1
      = pyInt (npMin ((warpMapped [[((0:ℚ),(0:ℚ),(0:ℚ))]] [[1,0,0],[0,1,0],[0,0,1]]).map Prod.fst)) :=
  ⟨by decide, by decide,
   (c6_bounds_by_truncation interpModel [[((0:ℚ),(0:ℚ),(0:ℚ))]] [[1,0,0],[0,1,0],[0,0,1]]
      (by decide) (by decide)).1⟩

set_option maxRecDepth 8000 in
/-- C6 counterexample: translating a 4x4 image by `(-1/2, -1/2)` maps the
grid's `u` coordinates to `{-1/2, 1/2, 3/2, 5/2}`; the code's offset is
`int(-1/2) = 0`, not the claimed floor `-1`, and the canvas width is
`int(5/2) - int(-1/2) = 2`, not the claimed `ceil(5/2) - floor(-1/2) = 4`. -/
theorem c6_trunc_not_floor_ceil :
    (warp_image interpModel
        [[((0:ℚ),(0:ℚ),(0:ℚ)), (0,0,0), (0,0,0), (0,0,0)],
         [(0,0,0), (0,0,0), (0,0,0), (0,0,0)],
         [(0,0,0), (0,0,0), (0,0,0), (0,0,0)],
         [(0,0,0), (0,0,0), (0,0,0), (0,0,0)]]
        [[1, 0, -1/2], [0, 1, -1/2], [0, 0, 1]]).2.1 = 0 ∧
    ⌊npMin ((warpMapped
        [[((0:ℚ),(0:ℚ),(0:ℚ)), (0,0,0), (0,0,0), (0,0,0)],
         [(0,0,0), (0,0,0), (0,0,0), (0,0,0)],
         [(0,0,0), (0,0,0), (0,0,0), (0,0,0)],
         [(0,0,0), (0,0,0), (0,0,0), (0,0,0)]]
        [[1, 0, -1/2], [0, 1, -1/2], [0, 0, 1]]).map Prod.fst)⌋ = -1 ∧
    ((warp_image interpModel
        [[((0:ℚ),(0:ℚ),(0:ℚ)), (0,0,0), (0,0,0), (0,0,0)],
         [(0,0,0), (0,0,0), (0,0,0), (0,0,0)],
         [(0,0,0), (0,0,0), (0,0,0), (0,0,0)],
         [(0,0,0), (0,0,0), (0,0,0), (0,0,0)]]
        [[1, 0, -1/2], [0, 1, -1/2], [0, 0, 1]]).1.cols : ℤ) = 2 ∧
    ⌈npMax ((warpMapped
        [[((0:ℚ),(0:ℚ),(0:ℚ)), (0,0,0), (0,0,0), (0,0,0)],
         [(0,0,0), (0,0,0), (0,0,0), (0,0,0)],
         [(0,0,0), (0,0,0), (0,0,0), (0,0,0)],
         [(0,0,0), (0,0,0), (0,0,0), (0,0,0)]]
        [[1, 0, -1/2], [0, 1, -1/2], [0, 0, 1]]).map Prod.fst)⌉
      - ⌊npMin ((warpMapped
        [[((0:ℚ),(0:ℚ),(0:ℚ)), (0,0,0), (0,0,0), (0,0,0)],
         [(0,0,0), (0,0,0), (0,0,0), (0,0,0)],
         [(0,0,0), (0,0,0), (0,0,0), (0,0,0)],
         [(0,0,0), (0,0,0), (0,0,0), (0,0,0)]]
        [[1, 0, -1/2], [0, 1, -1/2], [0, 0, 1]]).map Prod.fst)⌋ = 4 ∧
    (0 : ℤ) ≠ -1 ∧ (2 : ℤ) ≠ 4 := by
  decide

/-- C3 (amended): warping with the identity homography returns the input
image with its last row and last column dropped — canvas dimensions
`(H-1) x (W-1)` instead of `H x W`, every remaining pixel equal to the input
pixel at the same position — together with offsets `min_u = min_v = 0`.
The `int(np.max(...))` bounds at src/main.py lines 232-235 are used without
the `+ 1` (or ceiling) that preserving the full extent would need, so one
pixel is lost per axis.  `hknot` states that the external interpolant
reproduces the image values at the integer grid knots (the defining property
of `RectBivariateSpline`; scipy additionally needs at least 4 samples per
axis for its default cubic degree, so real executions have `W, H >= 4`). -/
theorem c3_identity_warp_cropped (interp : Interp) (image : Img)
    (hW : 1 ≤ imgW image) (hH : 1 ≤ imgH image)
    (hknot : ∀ ch : Fin 3, ∀ v : ℕ, v < imgH image → ∀ u : ℕ, u < imgW image →
      interp (chanImg ch image) (v : ℚ) (u : ℚ)
        = pxChan ch ((image.getD v []).getD u (0, 0, 0))) :
    (warp_image interp image [[1, 0, 0], [0, 1, 0], [0, 0, 1]]).2.1 = 0 ∧
    (warp_image interp image [[1, 0, 0], [0, 1, 0], [0, 0, 1]]).2.2 = 0 ∧
    (warp_image interp image [[1, 0, 0], [0, 1, 0], [0, 0, 1]]).1.rows = imgH image - 1 ∧
    (warp_image interp image [[1, 0, 0], [0, 1, 0], [0, 0, 1]]).1.cols = imgW image - 1 ∧
    (∀ i j, i < imgH image - 1 → j < imgW image - 1 → ∀ ch : Fin 3,
      (warp_image interp image [[1, 0, 0], [0, 1, 0], [0, 0, 1]]).1.px i j ch
        = pxChan ch ((image.getD i []).getD j (0, 0, 0))) := by
  have hb := warpBounds_id image hW hH
  refine ⟨hb.1, hb.2.2.1, ?_, ?_,
    fun i j hi hj ch => c3_core interp image hW hH hknot i j hi hj ch⟩
  · show (warpMaxV image [[1, 0, 0], [0, 1, 0], [0, 0, 1]]
        - warpMinV image [[1, 0, 0], [0, 1, 0], [0, 0, 1]]).toNat = imgH image - 1
    rw [hb.2.2.2, hb.2.2.1]
    simp
  · show (warpMaxU image [[1, 0, 0], [0, 1, 0], [0, 0, 1]]
        - warpMinU image [[1, 0, 0], [0, 1, 0], [0, 0, 1]]).toNat = imgW image - 1
    rw [hb.2.1, hb.1]
    simp

set_option maxRecDepth 8000 in
/-- Witness for C3 (amended) at a concrete 3x2 image with the model
interpolant: all hypotheses hold and the canvas has `3 - 1 = 2` rows. -/
theorem c3_identity_warp_cropped_witness :
    (1 ≤ imgW [[((0:ℚ),(0:ℚ),(0:ℚ)), (1,0,1)], [(0,1,1), (1,1,2)], [(0,2,2), (1,2,3)]]) ∧
    (∀ ch : Fin 3, ∀ v : ℕ,
      v < imgH [[((0:ℚ),(0:ℚ),(0:ℚ)), (1,0,1)], [(0,1,1), (1,1,2)], [(0,2,2), (1,2,3)]] →
      ∀ u : ℕ,
      u < imgW [[((0:ℚ),(0:ℚ),(0:ℚ)), (1,0,1)], [(0,1,1), (1,1,2)], [(0,2,2), (1,2,3)]] →
      interpModel (chanImg ch [[((0:ℚ),(0:ℚ),(0:ℚ)), (1,0,1)], [(0,1,1), (1,1,2)], [(0,2,2), (1,2,3)]])
          (v : ℚ) (u : ℚ)
        = pxChan ch (([[((0:ℚ),(0:ℚ),(0:ℚ)), (1,0,1)], [(0,1,1), (1,1,2)],
            [(0,2,2), (1,2,3)]].getD v []).getD u (0, 0, 0))) ∧
    (warp_image interpModel
        [[((0:ℚ),(0:ℚ),(0:ℚ)), (1,0,1)], [(0,1,1), (1,1,2)], [(0,2,2), (1,2,3)]]
        [[1, 0, 0], [0, 1, 0], [0, 0, 1]]).1.rows
      = imgH [[((0:ℚ),(0:ℚ),(0:ℚ)), (1,0,1)], [(0,1,1), (1,1,2)], [(0,2,2), (1,2,3)]] - 1 :=
  ⟨by decide, by decide,
   (c3_identity_warp_cropped interpModel
      [[((0:ℚ),(0:ℚ),(0:ℚ)), (1,0,1)], [(0,1,1), (1,1,2)], [(0,2,2), (1,2,3)]]
      (by decide) (by decide) (by decide)).2.2.1⟩

set_option maxRecDepth 8000 in
/-- C3 counterexample: warping a 4x4 image with the identity homography
yields a canvas with 3 rows, not 4 — the output image is not equal to the
input image. -/
theorem c3_identity_warp_not_equal_input :
    (warp_image interpModel
        [[((0:ℚ),(0:ℚ),(0:ℚ)), (0,0,0), (0,0,0), (0,0,0)],
         [(0,0,0), (0,0,0), (0,0,0), (0,0,0)],
         [(0,0,0), (0,0,0), (0,0,0), (0,0,0)],
         [(0,0,0), (0,0,0), (0,0,0), (0,0,0)]]
        [[1, 0, 0], [0, 1, 0], [0, 0, 1]]).1.rows = 3 ∧
    imgH [[((0:ℚ),(0:ℚ),(0:ℚ)), (0,0,0), (0,0,0), (0,0,0)],
         [(0,0,0), (0,0,0), (0,0,0), (0,0,0)],
         [(0,0,0), (0,0,0), (0,0,0), (0,0,0)],
         [(0,0,0), (0,0,0), (0,0,0), (0,0,0)]] = 4 ∧
    (warp_image interpModel
        [[((0:ℚ),(0:ℚ),(0:ℚ)), (0,0,0), (0,0,0), (0,0,0)],
         [(0,0,0), (0,0,0), (0,0,0), (0,0,0)],
         [(0,0,0), (0,0,0), (0,0,0), (0,0,0)],
         [(0,0,0), (0,0,0), (0,0,0), (0,0,0)]]
        [[1, 0, 0], [0, 1, 0], [0, 0, 1]]).1.rows ≠
      imgH [[((0:ℚ),(0:ℚ),(0:ℚ)), (0,0,0), (0,0,0), (0,0,0)],
         [(0,0,0), (0,0,0), (0,0,0), (0,0,0)],
         [(0,0,0), (0,0,0), (0,0,0), (0,0,0)],
         [(0,0,0), (0,0,0), (0,0,0), (0,0,0)]] := by
  decide

end ImageStitching
